import Mathlib

set_option maxHeartbeats 1000000

/-!
Shallow embedding of the Elixir provider (`src/providers/elixir.rs`) of the
nixpacks repository: the mix.exs manifest scanner (two regex passes plus a
superglobal table), the toolchain version resolver over the fixed catalog
`AVAILABLE_ELIXIR_VERSIONS`, and the phase construction that consumes them.

Modelling conventions:
* Rust `f64` values are modelled as integers counting hundredths: the
  literal `1.9` is `190`, `1.10` is `110`, and so on.  Every number this
  code manipulates — the five catalog floors and every value producible by
  parsing a three-character match of the version pattern — is an integer
  multiple of `1/100`, and rounding these decimals to the nearest `f64` is
  injective and order preserving, so the `f64` comparisons performed by the
  source agree with integer comparisons of hundredths.
* Regex scanning is implemented character by character with the leftmost,
  greedy, non-overlapping semantics of the `regex` crate, specialised to the
  three patterns of the source.  `\s` is modelled by `Char.isWhitespace`
  (the whitespace characters occurring in manifests), `\d` by `Char.isDigit`,
  and `.` matches every character except a newline.
* A Rust `Result` carrying an `anyhow` error is `Except Unit`; a Rust panic
  (the byte-range slice `[1..]` on a non character boundary) is `none`.
-/

instance {ε α : Type} [DecidableEq ε] [DecidableEq α] : DecidableEq (Except ε α) := fun x y =>
  match x, y with
  | Except.error a, Except.error b =>
    if h : a = b then Decidable.isTrue (by rw [h])
    else Decidable.isFalse (fun hc => h (by cases hc; rfl))
  | Except.error _, Except.ok _ => Decidable.isFalse (fun hc => Except.noConfusion hc)
  | Except.ok _, Except.error _ => Decidable.isFalse (fun hc => Except.noConfusion hc)
  | Except.ok a, Except.ok b =>
    if h : a = b then Decidable.isTrue (by rw [h])
    else Decidable.isFalse (fun hc => h (by cases hc; rfl))

/-- The record produced by `parse_mix_project` (struct `MixProject`). -/
structure MixProject where
  app_name : Option String
  elixir_version : Option String
  is_escript : Bool
deriving DecidableEq

/-- The fixed catalog `AVAILABLE_ELIXIR_VERSIONS : &[(f64, &str)]`.  Floors
are in hundredths: the source literals are `1.9`, `1.10`, `1.11`, `1.12`,
`1.13`, whose numeric values are `1.90`, `1.10`, `1.11`, `1.12`, `1.13`. -/
def AVAILABLE_ELIXIR_VERSIONS : List (ℤ × String) :=
  [(190, "elixir_1_9"),
   (110, "elixir_1_10"),
   (111, "elixir_1_11"),
   (112, "elixir_1_12"),
   (113, "elixir")]

/-- The constant `DEFAULT_ELIXIR_PKG_NAME`. -/
def DEFAULT_ELIXIR_PKG_NAME : String := "elixir"

namespace ElixirProvider

/-! ### The superglobal pass: `Regex::new("@(.+)\\s\"(.+)\"")`, `captures_iter`

A match starting at an `@` consists of: the literal `@`; a greedy, non-empty,
newline-free first capture; one whitespace character; a literal quote; a
greedy, non-empty, newline-free second capture; a closing quote.  Greediness
means the first capture takes the longest length that lets the rest match,
and given that, the second capture ends at the last possible quote. -/

/-- Index of the last `"` in a list, if any. -/
def lastQuote : List Char → Option Nat
  | [] => none
  | c :: rest =>
    match lastQuote rest with
    | some o => some (o + 1)
    | none => if c = '"' then some 0 else none

/-- Match `(.+)"` greedily at the head of `p`: the capture is the segment up
to the last quote of the newline-free run, which must be non-empty.  Returns
the capture and the number of characters consumed (capture plus quote). -/
def sgQuotePart (p : List Char) : Option (List Char × Nat) :=
  let seg := p.takeWhile (fun c => c ≠ '\n')
  match lastQuote seg with
  | none => none
  | some o => if o = 0 then none else some (seg.take o, o + 1)

/-- Try first-capture lengths `k, k-1, …, 1` (greedy backtracking) for the
part after the `@`: capture, whitespace, quote, quoted part.  Returns the two
captures and the remainder of the text after the match. -/
def sgTryLen (rest : List Char) : Nat → Option (String × String × List Char)
  | 0 => none
  | k + 1 =>
    match rest.drop (k + 1) with
    | w :: q :: p =>
      if w.isWhitespace ∧ q = '"' then
        match sgQuotePart p with
        | some (v, used) => some (⟨rest.take (k + 1)⟩, ⟨v⟩, p.drop used)
        | none => sgTryLen rest k
      else sgTryLen rest k
    | _ => sgTryLen rest k

/-- Attempt a superglobal match at the head of the text. -/
def sgMatchAt : List Char → Option (String × String × List Char)
  | [] => none
  | c :: rest =>
    if c = '@' then
      sgTryLen rest ((rest.takeWhile (fun x => x ≠ '\n')).length)
    else none

/-- All captures of the superglobal pattern, leftmost and non-overlapping
(the semantics of `captures_iter`).  Fuel is the length of the text; every
step consumes at least one character. -/
def sgCapturesAux : Nat → List Char → List (String × String)
  | 0, _ => []
  | _ + 1, [] => []
  | fuel + 1, c :: rest =>
    match sgMatchAt (c :: rest) with
    | some (k, v, after) => (k, v) :: sgCapturesAux fuel after
    | none => sgCapturesAux fuel rest

/-- The capture list of the superglobal pass over a text. -/
def sgCaptures (s : List Char) : List (String × String) := sgCapturesAux s.length s

end ElixirProvider

namespace ElixirProvider

/-! ### The declaration pass: `Regex::new("(?m)([^\\s]+):\\s([^,]+)(?:,|$)")`

A match consists of a greedy, non-empty run of non-whitespace characters
followed by a colon (because the character after the colon must be
whitespace, the colon is necessarily the last character of the maximal
non-whitespace run), one whitespace character, and a greedy, non-empty run
of non-comma characters.  The value run always ends at a comma or at the end
of the text, so the trailing `(?:,|$)` always matches at the greedy end. -/

/-- Attempt a declaration match at the head of the text.  Returns the key
capture, the value capture and the remainder of the text after the match. -/
def mixMatchAt (s : List Char) : Option (String × String × List Char) :=
  let run := s.takeWhile (fun c => !c.isWhitespace)
  if run.length < 2 then none
  else if run.getLast? ≠ some ':' then none
  else
    match s.drop run.length with
    | [] => none
    | w :: rest2 =>
      if !w.isWhitespace then none
      else
        match rest2 with
        | [] => none
        | d :: _ =>
          if d = ',' then none
          else
            let val := rest2.takeWhile (fun c => c ≠ ',')
            let after :=
              match rest2.drop val.length with
              | ',' :: t => t
              | t => t
            some (⟨run.dropLast⟩, ⟨val⟩, after)

/-- All captures of the declaration pattern, leftmost and non-overlapping. -/
def mixCapturesAux : Nat → List Char → List (String × String)
  | 0, _ => []
  | _ + 1, [] => []
  | fuel + 1, c :: rest =>
    match mixMatchAt (c :: rest) with
    | some (k, v, after) => (k, v) :: mixCapturesAux fuel after
    | none => mixCapturesAux fuel rest

/-- The capture list of the declaration pass over a text. -/
def mixCaptures (s : List Char) : List (String × String) := mixCapturesAux s.length s

/-! ### The superglobal table (`HashMap<String, String>`)

Modelled as an association list with overwriting insert; only `insert` and
`get` are used by the source, so the model is observationally the map. -/

/-- Insert with overwrite (`HashMap::insert`). -/
def sgInsert : List (String × String) → String → String → List (String × String)
  | [], k, v => [(k, v)]
  | (k0, v0) :: rest, k, v =>
    if k0 = k then (k, v) :: rest else (k0, v0) :: sgInsert rest k v

/-- Lookup (`HashMap::get`). -/
def sgLookup : List (String × String) → String → Option String
  | [], _ => none
  | (k0, v0) :: rest, x => if k0 = x then some v0 else sgLookup rest x

/-- The superglobal table built from the capture list of the first pass;
later duplicate names overwrite earlier ones. -/
def buildSuperglobals (caps : List (String × String)) : List (String × String) :=
  caps.foldl (fun acc kv => sgInsert acc kv.1 kv.2) []

/-- The function `parse_with_superglobal`: substitute a value that names a
superglobal by its literal value, otherwise keep the value verbatim. -/
def parse_with_superglobal (superglobals : List (String × String)) (value : String) :
    Option String :=
  match sgLookup superglobals value with
  | some superglobal => some superglobal
  | none => some value

/-- The dispatch of `parse_mix_project` on one declaration capture. -/
def applyCapture (superglobals : List (String × String)) (st : MixProject)
    (kv : String × String) : MixProject :=
  let parsed_value := parse_with_superglobal superglobals kv.2
  if kv.1 = "app" then { st with app_name := parsed_value }
  else if kv.1 = "elixir" then { st with elixir_version := parsed_value }
  else if kv.1 = "escript" then { st with is_escript := true }
  else st

/-- The function `parse_mix_project` on the contents of `mix.exs` (the
file-missing case, in which the source returns `Ok(None)` before reading,
is handled by the caller-side `Option` in `get_nix_elixir_pkg`). -/
def parse_mix_project (text : String) : MixProject :=
  let superglobals := buildSuperglobals (sgCaptures text.data)
  (mixCaptures text.data).foldl (applyCapture superglobals)
    { app_name := none, elixir_version := none, is_escript := false }

/-! ### The version resolver: `get_closest_version` and `get_nix_elixir_pkg` -/

/-- Numeric value of an ASCII digit character. -/
def digitVal (c : Char) : ℕ := c.toNat - 48

/-- Leftmost match of `Regex::new("\\d.\\d")`: a digit, any character except
a newline (the dot of the pattern is unescaped), and a digit. -/
def findVersionMatch : List Char → Option (Char × Char × Char)
  | a :: b :: c :: rest =>
    if a.isDigit ∧ b ≠ '\n' ∧ c.isDigit then some (a, b, c)
    else findVersionMatch (b :: c :: rest)
  | _ => none

/-- Rust `str::parse::<f64>` on the three-character matched substring: the
middle character must be a dot, a digit, or an exponent marker for the parse
to succeed.  The result is in hundredths: `"d.e"` parses to the decimal
`d.e`, i.e. `100*d + 10*e` hundredths; a three-digit string parses to the
integer it spells; `"dee"` with an exponent marker parses to `d * 10 ^ e`. -/
def parseF64_3 (a b c : Char) : Option ℤ :=
  if b = '.' then some ((100 * digitVal a + 10 * digitVal c : ℕ) : ℤ)
  else if b.isDigit then some (((100 * digitVal a + 10 * digitVal b + digitVal c) * 100 : ℕ) : ℤ)
  else if b = 'e' ∨ b = 'E' then some ((digitVal a * 10 ^ digitVal c * 100 : ℕ) : ℤ)
  else none

/-- The extraction step of `get_closest_version`: the first pattern match,
parsed as a number; no match is `ok none`, a failed parse of a matched
substring is the propagated error of the `?` operator. -/
def extractVersion (s : String) : Except Unit (Option ℤ) :=
  match findVersionMatch s.data with
  | none => Except.ok none
  | some (a, b, c) =>
    match parseF64_3 a b c with
    | some v => Except.ok (some v)
    | none => Except.error ()

/-- The catalog scan of `get_closest_version`: the first entry whose floor
is greater than or equal to the parsed version. -/
def closestEntry (v : ℤ) : Option (ℤ × String) :=
  AVAILABLE_ELIXIR_VERSIONS.find? (fun p => decide (v ≤ p.1))

/-- The function `get_closest_version`. -/
def get_closest_version (s : String) : Except Unit (Option String) :=
  match extractVersion s with
  | Except.error e => Except.error e
  | Except.ok none => Except.ok none
  | Except.ok (some v) =>
    match closestEntry v with
    | some p => Except.ok (some p.2)
    | none => Except.ok none

/-- The function `get_nix_elixir_pkg`. -/
def get_nix_elixir_pkg (mix_project : Option MixProject) : Except Unit String :=
  match mix_project with
  | none => Except.ok DEFAULT_ELIXIR_PKG_NAME
  | some project =>
    match project.elixir_version with
    | none => Except.ok DEFAULT_ELIXIR_PKG_NAME
    | some elixir_version =>
      match get_closest_version elixir_version with
      | Except.error e => Except.error e
      | Except.ok (some nix_pkg) => Except.ok nix_pkg
      | Except.ok none => Except.ok DEFAULT_ELIXIR_PKG_NAME

/-! ### Phase construction: `build` and `start` -/

/-- The Rust slice `&name[1..]` on a `String`: it panics (modelled `none`)
when the string is empty (byte index out of bounds) or when its first
character occupies more than one byte (not a character boundary); otherwise
it drops exactly the first byte, which is then the whole first character. -/
def stripFirstByteSlice (s : String) : Option String :=
  match s.data with
  | [] => none
  | c :: cs => if c.utf8Size = 1 then some ⟨cs⟩ else none

/-- The command of the build phase produced by `build`, if any. -/
def build (text : String) : Option String :=
  let project := parse_mix_project text
  if project.is_escript ∧ project.app_name.isSome then some "mix escript.build"
  else none

/-- The command of the start phase produced by `start`; `none` models the
panic of the byte-range slice. -/
def start (text : String) : Option String :=
  let project := parse_mix_project text
  match project.app_name, project.is_escript with
  | some name, true => (stripFirstByteSlice name).map (fun t => "./" ++ t)
  | _, _ => some "mix run --no-halt"

end ElixirProvider

namespace ElixirProvider

/-- The raw value of the last capture with the given key, in scan order;
used to state the last-match-wins behaviour of the two scan passes. -/
def lastVal (key : String) (caps : List (String × String)) : Option String :=
  caps.foldl (fun acc kv => if kv.1 = key then some kv.2 else acc) none

end ElixirProvider

/-- A manifest with the two declarations of Scenario 1 of the spec. -/
def scenario1 : String := "app: :my_app,\nelixir: \"~> 1.12\","

/-- A manifest with the four declarations of Scenario 2 of the spec. -/
def scenario2 : String :=
  "@version \"1.10\"\nelixir: version,\nescript: [main_module: Demo],\napp: :demo,"

open ElixirProvider

/-- C1, counterexample.  For the Scenario 1 manifest — `app: :my_app,` and
`elixir: "~> 1.12",` — toolchain resolution does not return `elixir_1_12`. -/
theorem scenario1_resolution_ne_elixir_1_12 :
    get_nix_elixir_pkg (some (parse_mix_project scenario1)) ≠ Except.ok "elixir_1_12" := by
  decide

/-- C1, amended.  For the Scenario 1 manifest, the scanned version
expression is the raw capture `"~> 1.12"` (quotes included), the version
pattern extracts only `1.1` from it, and since the catalog's first floor
`1.9` (numerically the largest) already satisfies `1.9 ≥ 1.1`, resolution
returns the first catalog entry `elixir_1_9`. -/
theorem scenario1_resolves_to_elixir_1_9 :
    (parse_mix_project scenario1).elixir_version = some "\"~> 1.12\"" ∧
    extractVersion "\"~> 1.12\"" = Except.ok (some 110) ∧
    get_nix_elixir_pkg (some (parse_mix_project scenario1)) = Except.ok "elixir_1_9" := by
  refine ⟨by decide, by decide, by decide⟩

/-- C2, counterexample.  The numeric floors of the catalog, in listed order
(in hundredths: 190, 110, 111, 112, 113), are not strictly increasing. -/
theorem catalog_floors_not_strictly_increasing :
    ¬ List.Pairwise (fun a b : ℤ => a < b) (AVAILABLE_ELIXIR_VERSIONS.map Prod.fst) := by
  decide

/-- C2, amended.  The floors of all entries after the first are strictly
increasing, but the first floor (the numeric value 1.90 of the literal
`1.9`) is greater than the second (1.10), so the listed order is ascending
only in version-line order, not numerically. -/
theorem catalog_floors_increasing_after_first :
    List.Pairwise (fun a b : ℤ => a < b) ((AVAILABLE_ELIXIR_VERSIONS.map Prod.fst).drop 1) ∧
    AVAILABLE_ELIXIR_VERSIONS.map Prod.fst = [190, 110, 111, 112, 113] ∧
    (110 : ℤ) < 190 := by
  refine ⟨by decide, by decide, by decide⟩

/-- C3, code bug.  The extraction pattern has an unescaped dot, so it also
matches substrings such as `1a2` that are not numbers; on the version
expression `"1a2"` the matched substring fails the numeric parse and
`get_closest_version` returns an error instead of an absent result. -/
theorem get_closest_version_errors_on_1a2 :
    get_closest_version "1a2" = Except.error () := by
  decide

/-- C5, counterexample.  For the Scenario 2 manifest (escript key present,
`app: :demo,`), the start phase command is not `./emo`. -/
theorem scenario2_start_ne_emo :
    start scenario2 ≠ some "./emo" := by
  decide

/-- C5, amended.  The value captured for the application-name key is
`:demo` — the colon sigil is part of the capture — so stripping the first
character removes the sigil and the start phase runs `./demo`. -/
theorem scenario2_start_is_demo :
    (parse_mix_project scenario2).app_name = some ":demo" ∧
    (parse_mix_project scenario2).is_escript = true ∧
    start scenario2 = some "./demo" := by
  refine ⟨by decide, by decide, by decide⟩

/-- Any entry `find?` returns from the catalog is the first one, `(1.9,
elixir_1_9)`: since the first floor is numerically the largest, the first
entry qualifies whenever any entry does. -/
theorem closestEntry_characterization {v : ℤ} {e : ℤ × String}
    (h : closestEntry v = some e) :
    e = (190, "elixir_1_9") ∧ v ≤ 190 := by
  by_cases hv : v ≤ 190
  · refine ⟨?_, hv⟩
    simp [closestEntry, AVAILABLE_ELIXIR_VERSIONS, List.find?, hv] at h
    exact h.symm
  · exfalso
    have h2 : ¬ v ≤ 110 := by omega
    have h3 : ¬ v ≤ 111 := by omega
    have h4 : ¬ v ≤ 112 := by omega
    have h5 : ¬ v ≤ 113 := by omega
    simp [closestEntry, AVAILABLE_ELIXIR_VERSIONS, List.find?, hv, h2, h3, h4, h5] at h

/-- Every number the extraction step can produce is a whole multiple of ten
hundredths (one decimal digit, a three-digit integer, or an integer from an
exponent form), so the floors 1.11, 1.12, 1.13 are not extractable. -/
theorem extractVersion_mul10 {s : String} {v : ℤ}
    (h : extractVersion s = Except.ok (some v)) : ∃ k : ℕ, v = 10 * k := by
  unfold extractVersion at h
  rcases hf : findVersionMatch s.data with _ | ⟨a, b, c⟩ <;> rw [hf] at h
  · simp at h
  · rcases hp : parseF64_3 a b c with _ | w
    · simp [hp] at h
    · simp only [hp, Except.ok.injEq, Option.some.injEq] at h
      subst h
      unfold parseF64_3 at hp
      split_ifs at hp
      · refine ⟨10 * digitVal a + digitVal c, ?_⟩
        simp only [Option.some.injEq] at hp
        rw [← hp]; push_cast; ring
      · refine ⟨(100 * digitVal a + 10 * digitVal b + digitVal c) * 10, ?_⟩
        simp only [Option.some.injEq] at hp
        rw [← hp]; push_cast; ring
      · refine ⟨digitVal a * 10 ^ digitVal c * 10, ?_⟩
        simp only [Option.some.injEq] at hp
        rw [← hp]; push_cast; ring

/-- C4, counterexample.  The extracted number 1.10 is exactly the floor of
the catalog entry `elixir_1_10`, yet the resolver returns `elixir_1_9`,
whose floor 1.9 is numerically higher. -/
theorem exact_floor_110_resolves_elixir_1_9 :
    extractVersion "1.1" = Except.ok (some 110) ∧
    ((110 : ℤ), "elixir_1_10") ∈ AVAILABLE_ELIXIR_VERSIONS ∧
    get_closest_version "1.1" = Except.ok (some "elixir_1_9") ∧
    ("elixir_1_9" : String) ≠ "elixir_1_10" := by
  refine ⟨by decide, by decide, by decide, by decide⟩

/-- C4, amended.  For every version expression whose extracted number `v`
(in hundredths) equals the floor of a catalog entry other than the 1.10
entry, the resolver returns that exact entry's identifier.  (For v = 1.10
it returns `elixir_1_9` instead; the floors 1.11, 1.12, 1.13 cannot be
extracted by the three-character pattern, so the only exact-floor match
reachable with this hypothesis is 1.9, which resolves to itself.) -/
theorem exact_floor_resolves_exact (s : String) (v : ℤ) (id : String)
    (h1 : extractVersion s = Except.ok (some v))
    (h2 : (v, id) ∈ AVAILABLE_ELIXIR_VERSIONS)
    (h3 : v ≠ 110) :
    get_closest_version s = Except.ok (some id) := by
  obtain ⟨k, hk⟩ := extractVersion_mul10 h1
  simp only [AVAILABLE_ELIXIR_VERSIONS, List.mem_cons, Prod.mk.injEq,
    List.not_mem_nil, or_false] at h2
  rcases h2 with ⟨hv, hid⟩ | ⟨hv, hid⟩ | ⟨hv, hid⟩ | ⟨hv, hid⟩ | ⟨hv, hid⟩
  · subst hv; subst hid
    simp [get_closest_version, h1,
      (by decide : closestEntry 190 = some ((190 : ℤ), "elixir_1_9"))]
  · exact absurd hv h3
  · omega
  · omega
  · omega

/-- C4, witness: the floor 1.9 resolves to its own entry. -/
theorem exact_floor_resolves_exact_witness :
    (((190 : ℤ), "elixir_1_9") ∈ AVAILABLE_ELIXIR_VERSIONS) ∧
    get_closest_version "1.9" = Except.ok (some "elixir_1_9") :=
  ⟨by decide, exact_floor_resolves_exact "1.9" 190 "elixir_1_9" (by decide) (by decide)
    (by decide)⟩

/-- C6.  When the extracted number exceeds every catalog floor, the
resolver reports no match (an absent result, not an error), and the
caller `get_nix_elixir_pkg` then yields the fixed default identifier
`elixir`. -/
theorem above_catalog_resolves_default (s : String) (v : ℤ) (mp : MixProject)
    (h1 : extractVersion s = Except.ok (some v))
    (h2 : ∀ p ∈ AVAILABLE_ELIXIR_VERSIONS, p.1 < v)
    (h3 : mp.elixir_version = some s) :
    get_closest_version s = Except.ok none ∧
    get_nix_elixir_pkg (some mp) = Except.ok "elixir" := by
  have hnone : closestEntry v = none := by
    unfold closestEntry
    apply List.find?_eq_none.mpr
    intro p hp
    simpa using not_le.mpr (h2 p hp)
  constructor
  · simp [get_closest_version, h1, hnone]
  · simp [get_nix_elixir_pkg, h3, get_closest_version, h1, hnone, DEFAULT_ELIXIR_PKG_NAME]

/-- C6, witness: the extracted number 9.9 exceeds every floor. -/
theorem above_catalog_resolves_default_witness :
    get_closest_version "9.9" = Except.ok none ∧
    get_nix_elixir_pkg
      (some { app_name := none, elixir_version := some "9.9", is_escript := false }) =
      Except.ok "elixir" :=
  above_catalog_resolves_default "9.9" 990
    { app_name := none, elixir_version := some "9.9", is_escript := false }
    (by decide) (by decide) rfl

/-- C7.  Version resolution is monotone: if numbers `a < b` are extracted
from two version expressions and the catalog scan returns an entry for
each, the entry for `b` has a floor no lower than the entry for `a` (both
are in fact the first entry, whose floor 1.9 dominates the catalog). -/
theorem resolution_monotone (sa sb : String) (a b : ℤ) (ea eb : ℤ × String)
    (_hea : extractVersion sa = Except.ok (some a))
    (_heb : extractVersion sb = Except.ok (some b))
    (_hab : a < b)
    (hra : closestEntry a = some ea)
    (hrb : closestEntry b = some eb) :
    ea.1 ≤ eb.1 := by
  obtain ⟨ha1, -⟩ := closestEntry_characterization hra
  obtain ⟨hb1, -⟩ := closestEntry_characterization hrb
  rw [ha1, hb1]

/-- C7, witness: the numbers 1.10 < 1.50 both resolve, to the same entry. -/
theorem resolution_monotone_witness :
    extractVersion "1.1" = Except.ok (some 110) ∧
    extractVersion "1.5" = Except.ok (some 150) ∧
    ((190 : ℤ), "elixir_1_9").1 ≤ ((190 : ℤ), "elixir_1_9").1 :=
  ⟨by decide, by decide,
    resolution_monotone "1.1" "1.5" 110 150 (190, "elixir_1_9") (190, "elixir_1_9")
      (by decide) (by decide) (by decide) (by decide) (by decide)⟩

/-- Folding the last-value step over a capture list, for any accumulator:
the result is the last matching capture if one exists, else the
accumulator. -/
theorem lastVal_foldl (key : String) (caps : List (String × String)) :
    ∀ a : Option String,
      caps.foldl (fun acc kv => if kv.1 = key then some kv.2 else acc) a =
        match lastVal key caps with
        | some v => some v
        | none => a := by
  induction caps with
  | nil => intro a; rfl
  | cons kv rest ih =>
    intro a
    have hcons : lastVal key (kv :: rest) =
        match lastVal key rest with
        | some v => some v
        | none => if kv.1 = key then some kv.2 else none := by
      simp only [lastVal, List.foldl_cons]
      exact ih _
    rw [List.foldl_cons, ih _, hcons]
    rcases h : lastVal key rest with _ | w <;> by_cases hk : kv.1 = key <;> simp [h, hk]

/-- A value recorded by the last-value fold comes from a capture with that
key (or was already the accumulator). -/
theorem lastVal_mem_aux (key : String) :
    ∀ (caps : List (String × String)) (a : Option String) (v : String),
      caps.foldl (fun acc kv => if kv.1 = key then some kv.2 else acc) a = some v →
      (key, v) ∈ caps ∨ a = some v := by
  intro caps
  induction caps with
  | nil => intro a v h; exact Or.inr h
  | cons kv rest ih =>
    intro a v h
    rw [List.foldl_cons] at h
    rcases ih _ v h with hm | he
    · exact Or.inl (List.mem_cons_of_mem _ hm)
    · by_cases hk : kv.1 = key
      · rw [if_pos hk] at he
        refine Or.inl ?_
        have hkv : (key, v) = kv := by
          obtain ⟨k0, v0⟩ := kv
          simp only [Option.some.injEq] at he
          simp only [Prod.mk.injEq]
          exact ⟨hk.symm, he.symm⟩
        rw [hkv]
        exact List.mem_cons_self _ _
      · rw [if_neg hk] at he
        exact Or.inr he

/-- A last value recorded over a capture list is one of the captures. -/
theorem lastVal_mem {key v : String} {caps : List (String × String)}
    (h : lastVal key caps = some v) : (key, v) ∈ caps := by
  rcases lastVal_mem_aux key caps none v h with hm | he
  · exact hm
  · exact absurd he (by simp)

/-- The app-name field after the dispatch fold is the superglobal-resolved
value of the last capture keyed `app`. -/
theorem foldl_applyCapture_app (sgs : List (String × String))
    (caps : List (String × String)) :
    ∀ st : MixProject,
      (caps.foldl (applyCapture sgs) st).app_name =
        match lastVal "app" caps with
        | some x => parse_with_superglobal sgs x
        | none => st.app_name := by
  induction caps with
  | nil => intro st; rfl
  | cons kv rest ih =>
    intro st
    have hcons : lastVal "app" (kv :: rest) =
        match lastVal "app" rest with
        | some v => some v
        | none => if kv.1 = "app" then some kv.2 else none := by
      simp only [lastVal, List.foldl_cons]
      exact lastVal_foldl "app" rest _
    rw [List.foldl_cons, ih _, hcons]
    rcases h : lastVal "app" rest with _ | w <;> simp only [h]
    by_cases h1 : kv.1 = "app"
    · simp [applyCapture, h1]
    · by_cases h2 : kv.1 = "elixir" <;> by_cases h3 : kv.1 = "escript" <;>
        simp [applyCapture, h1, h2, h3]

/-- The elixir-version field after the dispatch fold is the
superglobal-resolved value of the last capture keyed `elixir`. -/
theorem foldl_applyCapture_elixir (sgs : List (String × String))
    (caps : List (String × String)) :
    ∀ st : MixProject,
      (caps.foldl (applyCapture sgs) st).elixir_version =
        match lastVal "elixir" caps with
        | some x => parse_with_superglobal sgs x
        | none => st.elixir_version := by
  induction caps with
  | nil => intro st; rfl
  | cons kv rest ih =>
    intro st
    have hcons : lastVal "elixir" (kv :: rest) =
        match lastVal "elixir" rest with
        | some v => some v
        | none => if kv.1 = "elixir" then some kv.2 else none := by
      simp only [lastVal, List.foldl_cons]
      exact lastVal_foldl "elixir" rest _
    rw [List.foldl_cons, ih _, hcons]
    rcases h : lastVal "elixir" rest with _ | w <;> simp only [h]
    by_cases h1 : kv.1 = "app"
    · simp [applyCapture, h1]
    · by_cases h2 : kv.1 = "elixir" <;> by_cases h3 : kv.1 = "escript" <;>
        simp [applyCapture, h1, h2, h3]

/-- Lookup after an overwriting insert: the inserted key shadows, other
keys are unchanged. -/
theorem sgLookup_insert (t : List (String × String)) (k v y : String) :
    sgLookup (sgInsert t k v) y = if k = y then some v else sgLookup t y := by
  induction t with
  | nil => simp [sgInsert, sgLookup]
  | cons kv rest ih =>
    obtain ⟨k0, v0⟩ := kv
    by_cases hk : k0 = k
    · subst hk
      by_cases hy : k0 = y <;> simp [sgInsert, sgLookup, hy]
    · by_cases hy : k0 = y
      · subst hy
        have hky : ¬ k = k0 := fun h => hk h.symm
        simp [sgInsert, sgLookup, hk, hky]
      · simp [sgInsert, sgLookup, hk, hy, ih]

/-- Lookup in the table built by folding inserts over a capture list, for
any initial table. -/
theorem sgLookup_buildFold (caps : List (String × String)) :
    ∀ (t : List (String × String)) (y : String),
      sgLookup (caps.foldl (fun acc kv => sgInsert acc kv.1 kv.2) t) y =
        match lastVal y caps with
        | some v => some v
        | none => sgLookup t y := by
  induction caps with
  | nil => intro t y; rfl
  | cons kv rest ih =>
    intro t y
    have hcons : lastVal y (kv :: rest) =
        match lastVal y rest with
        | some v => some v
        | none => if kv.1 = y then some kv.2 else none := by
      simp only [lastVal, List.foldl_cons]
      exact lastVal_foldl y rest _
    rw [List.foldl_cons, ih _ y, hcons, sgLookup_insert]
    rcases h : lastVal y rest with _ | w <;> simp only [h]
    by_cases hk : kv.1 = y <;> simp [hk]

/-- The superglobal table records, for each name, the literal value of the
last declaration of that name (last write wins). -/
theorem sgLookup_build (caps : List (String × String)) (y : String) :
    sgLookup (buildSuperglobals caps) y = lastVal y caps := by
  unfold buildSuperglobals
  rw [sgLookup_buildFold]
  rcases h : lastVal y caps with _ | w <;> rfl

/-- C8, counterexample.  The manifest text contains the constant
declaration `@x "1.0"` and, elsewhere, the declaration `elixir: x` whose
value exactly equals the constant's name — but a later duplicate
declaration `@x "2.0"` overwrites the first, so the scanner records `2.0`,
not `1.0`. -/
theorem superglobal_roundtrip_duplicate_overwrites :
    (parse_mix_project "@x \"1.0\"\n@x \"2.0\"\nelixir: x,").elixir_version = some "2.0" ∧
    (some "2.0" : Option String) ≠ some "1.0" := by
  refine ⟨by decide, by decide⟩

/-- C8, amended.  For all manifest text, if `(x, v)` is the last
superglobal capture for the name `x` (in particular if `@x "v"` is the only
declaration of `x`) and the last language-version declaration's raw value
is exactly `x`, then the scanner records the literal value `v` for that
key: superglobal substitution round-trips through the table. -/
theorem superglobal_roundtrip (text : String) (x v : String)
    (h1 : lastVal x (sgCaptures text.data) = some v)
    (h2 : lastVal "elixir" (mixCaptures text.data) = some x) :
    (parse_mix_project text).elixir_version = some v := by
  simp only [parse_mix_project]
  rw [foldl_applyCapture_elixir]
  simp only [h2]
  unfold parse_with_superglobal
  rw [sgLookup_build]
  simp only [h1]

/-- C8, witness: a single constant declaration round-trips. -/
theorem superglobal_roundtrip_witness :
    lastVal "x" (sgCaptures ("@x \"1.0\"\nelixir: x,").data) = some "1.0" ∧
    lastVal "elixir" (mixCaptures ("@x \"1.0\"\nelixir: x,").data) = some "x" ∧
    (parse_mix_project "@x \"1.0\"\nelixir: x,").elixir_version = some "1.0" :=
  ⟨by decide, by decide, superglobal_roundtrip _ "x" "1.0" (by decide) (by decide)⟩

/-- C9.  Last match wins: the recorded application name and language
version are the superglobal-resolved values of the **last** captures for
the keys `app` and `elixir`, in scan order. -/
theorem last_match_wins (text : String) (va ve : String)
    (ha : lastVal "app" (mixCaptures text.data) = some va)
    (he : lastVal "elixir" (mixCaptures text.data) = some ve) :
    (parse_mix_project text).app_name =
      parse_with_superglobal (buildSuperglobals (sgCaptures text.data)) va ∧
    (parse_mix_project text).elixir_version =
      parse_with_superglobal (buildSuperglobals (sgCaptures text.data)) ve := by
  constructor
  · simp only [parse_mix_project]
    rw [foldl_applyCapture_app, ha]
  · simp only [parse_mix_project]
    rw [foldl_applyCapture_elixir, he]

/-- C9, witness: with duplicated `app` and `elixir` declarations, the
recorded values are those of the second (last) declarations. -/
theorem last_match_wins_witness :
    lastVal "app" (mixCaptures ("app: :a,\napp: :b,\nelixir: 1.0,\nelixir: 2.0,").data) =
      some ":b" ∧
    (parse_mix_project "app: :a,\napp: :b,\nelixir: 1.0,\nelixir: 2.0,").app_name =
      some ":b" ∧
    (parse_mix_project "app: :a,\napp: :b,\nelixir: 1.0,\nelixir: 2.0,").elixir_version =
      some "2.0" := by
  refine ⟨by decide, ?_, ?_⟩
  · exact (last_match_wins _ ":b" "2.0" (by decide) (by decide)).1.trans (by decide)
  · exact (last_match_wins _ ":b" "2.0" (by decide) (by decide)).2.trans (by decide)

namespace ElixirProvider

/-- The quoted-part capture of a superglobal match is non-empty. -/
theorem sgQuotePart_val_ne {p v : List Char} {used : Nat}
    (h : sgQuotePart p = some (v, used)) : v ≠ [] := by
  unfold sgQuotePart at h
  rcases hl : lastQuote (p.takeWhile (fun c => c ≠ '\n')) with _ | o <;>
    simp only [hl] at h
  · exact Option.noConfusion h
  · split_ifs at h with ho
    simp only [Option.some.injEq, Prod.mk.injEq] at h
    obtain ⟨hv, -⟩ := h
    rw [← hv]
    intro hnil
    rcases List.take_eq_nil_iff.mp hnil with h0 | hseg
    · exact ho h0
    · rw [hseg] at hl
      simp [lastQuote] at hl

/-- The value capture of a superglobal match attempt is non-empty. -/
theorem sgTryLen_val_ne {rest : List Char} {k v : String} {after : List Char} :
    ∀ n, sgTryLen rest n = some (k, v, after) → v.data ≠ [] := by
  intro n
  induction n with
  | zero => intro h; simp [sgTryLen] at h
  | succ m ih =>
    intro h
    unfold sgTryLen at h
    split at h
    · rename_i w q p heq
      split_ifs at h with hg
      · rcases hq : sgQuotePart p with _ | ⟨v0, used⟩ <;> simp only [hq] at h
        · exact ih h
        · simp only [Option.some.injEq, Prod.mk.injEq] at h
          obtain ⟨-, hv, -⟩ := h
          rw [← hv]
          simpa using sgQuotePart_val_ne hq
      · exact ih h
    · exact ih h

/-- The value capture of a superglobal match is non-empty. -/
theorem sgMatchAt_val_ne {s : List Char} {k v : String} {after : List Char}
    (h : sgMatchAt s = some (k, v, after)) : v.data ≠ [] := by
  unfold sgMatchAt at h
  split at h
  · exact Option.noConfusion h
  · split_ifs at h
    exact sgTryLen_val_ne _ h

/-- Every value in the superglobal capture list is non-empty (the `(.+)`
value pattern requires at least one character). -/
theorem sgCapturesAux_val_ne :
    ∀ (fuel : Nat) (s : List Char) (k v : String),
      (k, v) ∈ sgCapturesAux fuel s → v.data ≠ [] := by
  intro fuel
  induction fuel with
  | zero => intro s k v h; simp [sgCapturesAux] at h
  | succ m ih =>
    intro s k v h
    rcases s with _ | ⟨c, rest⟩
    · simp [sgCapturesAux] at h
    · rcases hm : sgMatchAt (c :: rest) with _ | ⟨k0, v0, after⟩
      · simp only [sgCapturesAux, hm] at h
        exact ih rest k v h
      · simp only [sgCapturesAux, hm, List.mem_cons, Prod.mk.injEq] at h
        rcases h with ⟨h1, h2⟩ | h
        · subst h2
          exact sgMatchAt_val_ne hm
        · exact ih after k v h

/-- The value capture of a declaration match is non-empty (the `[^,]+`
value pattern requires at least one character). -/
theorem mixMatchAt_val_ne {s : List Char} {k v : String} {after : List Char}
    (h : mixMatchAt s = some (k, v, after)) : v.data ≠ [] := by
  simp only [mixMatchAt] at h
  split_ifs at h with h1 h2
  split at h
  · exact Option.noConfusion h
  · rename_i w rest2 heq
    split_ifs at h with hw
    split at h
    · exact Option.noConfusion h
    · rename_i d tail heq2
      split_ifs at h with hd
      simp only [Option.some.injEq, Prod.mk.injEq] at h
      obtain ⟨-, hv, -⟩ := h
      rw [← hv]
      simp [List.takeWhile_cons, hd]

/-- Every value in the declaration capture list is non-empty. -/
theorem mixCapturesAux_val_ne :
    ∀ (fuel : Nat) (s : List Char) (k v : String),
      (k, v) ∈ mixCapturesAux fuel s → v.data ≠ [] := by
  intro fuel
  induction fuel with
  | zero => intro s k v h; simp [mixCapturesAux] at h
  | succ m ih =>
    intro s k v h
    rcases s with _ | ⟨c, rest⟩
    · simp [mixCapturesAux] at h
    · rcases hm : mixMatchAt (c :: rest) with _ | ⟨k0, v0, after⟩
      · simp only [mixCapturesAux, hm] at h
        exact ih rest k v h
      · simp only [mixCapturesAux, hm, List.mem_cons, Prod.mk.injEq] at h
        rcases h with ⟨h1, h2⟩ | h
        · subst h2
          exact mixMatchAt_val_ne hm
        · exact ih after k v h

/-- All superglobal capture values of a text are non-empty. -/
theorem sgCaptures_all_ne (text : List Char) :
    ∀ kv ∈ sgCaptures text, (kv.2 : String).data ≠ [] := by
  intro kv hkv
  obtain ⟨k, v⟩ := kv
  exact sgCapturesAux_val_ne _ _ k v hkv

/-- Superglobal resolution of a non-empty value over a table built from
non-empty capture values produces a non-empty value. -/
theorem parse_with_superglobal_ne {sgcaps : List (String × String)} {x r : String}
    (hsg : ∀ kv ∈ sgcaps, (kv.2 : String).data ≠ [])
    (hx : x.data ≠ [])
    (h : parse_with_superglobal (buildSuperglobals sgcaps) x = some r) : r.data ≠ [] := by
  unfold parse_with_superglobal at h
  rw [sgLookup_build] at h
  rcases hl : lastVal x sgcaps with _ | w <;> simp only [hl] at h
  · simp only [Option.some.injEq] at h
    rw [← h]
    exact hx
  · simp only [Option.some.injEq] at h
    rw [← h]
    exact hsg (x, w) (lastVal_mem hl)

/-- Every application name the scanner records is non-empty. -/
theorem parse_app_name_ne {text : String} {name : String}
    (h : (parse_mix_project text).app_name = some name) : name.data ≠ [] := by
  simp only [parse_mix_project] at h
  rw [foldl_applyCapture_app] at h
  rcases hl : lastVal "app" (mixCaptures text.data) with _ | x <;> simp only [hl] at h
  · exact Option.noConfusion h
  · have hx : ("app", x) ∈ mixCaptures text.data := lastVal_mem hl
    have hxne : x.data ≠ [] := mixCapturesAux_val_ne _ _ "app" x hx
    exact parse_with_superglobal_ne (sgCaptures_all_ne _) hxne h

end ElixirProvider

/-- C10.  The first-character strip in `start` is total exactly for app
names whose first character is a single byte: the captured app name is
always non-empty (the value pattern requires at least one character), so
the slice never reaches past the end; the slice removes exactly the first
byte — the whole first character when that character is one byte — and it
panics (modelled `none`) when the first character occupies more than one
byte, byte index 1 then not being a character boundary. -/
theorem first_char_strip_safety (text : String) (name : String)
    (hn : (parse_mix_project text).app_name = some name)
    (he : (parse_mix_project text).is_escript = true) :
    name.data ≠ [] ∧
    ∀ c cs, name.data = c :: cs →
      (c.utf8Size = 1 → start text = some ("./" ++ String.mk cs)) ∧
      (c.utf8Size ≠ 1 → start text = none) := by
  refine ⟨parse_app_name_ne hn, ?_⟩
  intro c cs hcc
  have hstart : start text = (stripFirstByteSlice name).map (fun t => "./" ++ t) := by
    simp only [start, hn, he]
  constructor
  · intro h1
    rw [hstart]
    unfold stripFirstByteSlice
    simp [hcc, h1]
  · intro h1
    rw [hstart]
    unfold stripFirstByteSlice
    simp [hcc, h1]

/-- C10, witness: a manifest whose app name starts with a two-byte
character makes the start phase panic. -/
theorem first_char_strip_safety_witness :
    (parse_mix_project "app: é,\nescript: [],").app_name = some "é" ∧
    start "app: é,\nescript: []," = none :=
  ⟨by decide,
    ((first_char_strip_safety _ "é" (by decide) (by decide)).2 'é' [] (by decide)).2 (by decide)⟩
